import Mathlib

/-!
# Verification of the STL fixed-point viewer core

Shallow embedding of the numeric/geometric pipeline of `stl.ino`:
a Q16.16 fixed-point arithmetic kernel, an ASCII-decimal parser, an STL
triangle ingester, and the bounding-box / scale / project / cull chain.

`fixed_t` (C: `int32_t`) is modelled as `Int` together with the
two's-complement wraparound function `wrap32`; unsigned 32-bit
intermediates (C: `uint32_t`) are modelled as `Nat` reduced `% 2^32`
at every operation that can wrap.  `x >> 16` on a signed value is the
arithmetic shift, i.e. flooring division `x / 65536` (Lean's `Int`
division is Euclidean, which coincides with flooring for positive
divisors); `x & 0xFFFF` on a signed value is `x % 65536`.
-/

/-- Two's-complement wraparound of an integer into the `int32_t` range
`[-2^31, 2^31)`. -/
def wrap32 (x : Int) : Int := (x + 2147483648) % 4294967296 - 2147483648

/-- The value range of `int32_t` (the C `fixed_t`). -/
def in32 (x : Int) : Prop := -2147483648 ≤ x ∧ x < 2147483648

instance (x : Int) : Decidable (in32 x) := by unfold in32; infer_instance

/-- C: `fixed_t addfix(fixed_t a, fixed_t b) { return (a+b); }`
(32-bit wraparound addition). -/
def addfix (a b : Int) : Int := wrap32 (a + b)

/-- C: `fixed_t subfix(fixed_t a, fixed_t b) { return (a-b); }`
(32-bit wraparound subtraction). -/
def subfix (a b : Int) : Int := wrap32 (a - b)

/-- C: `int_to_fix(a) = a << 16` (wraps like the 32-bit shift). -/
def int_to_fix (a : Int) : Int := wrap32 (a * 65536)

/-- C: `fix_to_int(a) = a >> 16` (arithmetic shift = flooring division). -/
def fix_to_int (a : Int) : Int := a / 65536

/-- C: `fixed_t mulfix(fixed_t a, fixed_t b)` — the split-operand
Q16.16 multiply.  `A`,`C` are the arithmetic right shifts by 16 of the
operands, `B`,`D` the unsigned low halves.  `A*D + C*B` is computed in
32-bit arithmetic (wrapping), `B*D` is unsigned.  In the returned value
`(product_hi << 16) | (product_lo >> 16)` the two operands of `|` have
disjoint bits (the low 16 bits of the shifted value are zero), so the
bitwise or is written as an addition. -/
def mulfix (a b : Int) : Int :=
  let A := a / 65536
  let C := b / 65536
  let B := a % 65536
  let D := b % 65536
  let AC := wrap32 (A * C)
  let AD_CB := wrap32 (A * D + C * B)
  let BD := (B * D) % 4294967296
  let product_hi := wrap32 (AC + AD_CB / 65536)
  let ad_cb_temp := (AD_CB * 65536) % 4294967296
  let product_lo := (BD + ad_cb_temp) % 4294967296
  let product_hi' := if product_lo < BD then wrap32 (product_hi + 1) else product_hi
  wrap32 ((product_hi' * 65536) % 4294967296 + product_lo / 65536)

/-- Modelled from the spec's words for the refinement claim: the naive
Q16.16 multiply through an exact (64-bit) product: arithmetic right
shift by 16 of `a*b`, truncated to the low 32 bits. -/
def mulfix_naive (a b : Int) : Int := wrap32 ((a * b) / 65536)

/-! ## Restoring division (`divfix`) -/

/-- Unsigned 32-bit left shift by one. -/
def shift32 (n : Nat) : Nat := (n * 2) % 4294967296

/-- C: the alignment loop of `divfix`:
`while (divider < remainder) { divider <<= 1; bit <<= 1; }`. -/
def divfix_align : Nat → Nat → Nat → Nat → Nat × Nat
  | 0, _, divider, bit => (divider, bit)
  | fuel+1, remainder, divider, bit =>
    if divider < remainder then divfix_align fuel remainder (shift32 divider) (shift32 bit)
    else (divider, bit)

/-- C: the block `if (divider & 0x80000000) { ... }` of `divfix`
(one conditional subtract step with the over-wide divider, then halve
divider and bit).  Returns `(remainder, divider, quotient, bit)`. -/
def divfix_mid (remainder divider quotient bit : Nat) : Nat × Nat × Nat × Nat :=
  if 2147483648 ≤ divider then
    if divider ≤ remainder then
      (remainder - divider, divider / 2, quotient ||| bit, bit / 2)
    else (remainder, divider / 2, quotient, bit / 2)
  else (remainder, divider, quotient, bit)

/-- C: the main loop of `divfix`:
`while (bit && remainder) { if (remainder >= divider) { quotient |= bit;
remainder -= divider; } remainder <<= 1; bit >>= 1; }`. -/
def divfix_loop : Nat → Nat → Nat → Nat → Nat → Nat
  | 0, _, _, quotient, _ => quotient
  | fuel+1, remainder, divider, quotient, bit =>
    if bit ≠ 0 ∧ remainder ≠ 0 then
      if divider ≤ remainder then
        divfix_loop fuel (shift32 (remainder - divider)) divider (quotient ||| bit) (bit / 2)
      else
        divfix_loop fuel (shift32 remainder) divider quotient (bit / 2)
    else quotient

/-- C: `fixed_t divfix(fixed_t a, fixed_t b)` — restoring shift-and-subtract
division on the magnitudes (`uint32_t remainder = |a|`, `divider = |b|`,
`quotient = 0`, `bit = 0x10000`), then the sign fix
`if ((a ^ b) & 0x80000000) result = -result;` (the xor of the sign bits is
set exactly when the operands' signs differ).  Both loops terminate within
well under 64 iterations whenever the C loops terminate (`b ≠ 0`), so a
fixed fuel of 64 is faithful. -/
def divfix (a b : Int) : Int :=
  let remainder := a.natAbs
  let divider := b.natAbs
  let ab := divfix_align 64 remainder divider 65536
  let m := divfix_mid remainder ab.1 0 ab.2
  let quotient := divfix_loop 64 m.1 m.2.1 m.2.2.1 m.2.2.2
  let result := wrap32 (quotient : Int)
  if (a < 0) ↔ (b < 0) then result else wrap32 (-result)

/-! ## Geometry data types and back-face culling -/

/-- C: `typedef struct { fixed_t x,y; } point2d;` (also `vector2d`). -/
structure point2d where
  x : Int
  y : Int
deriving DecidableEq

/-- C: `typedef struct { fixed_t x,y,z; } point3d;` (also `vector3d`). -/
structure point3d where
  x : Int
  y : Int
  z : Int
deriving DecidableEq

/-- C: `typedef struct { point2d points[3]; } triangle2d;`
(array cells `points[0..2]` become the three fields). -/
structure triangle2d where
  points0 : point2d
  points1 : point2d
  points2 : point2d
deriving DecidableEq

/-- C: `typedef struct { point3d points[3]; } triangle3d;`. -/
structure triangle3d where
  points0 : point3d
  points1 : point3d
  points2 : point3d
deriving DecidableEq

/-- C: `typedef struct { vector2d max, min; } box2d;`. -/
structure box2d where
  max : point2d
  min : point2d
deriving DecidableEq

/-- C: `typedef struct { vector3d max, min; } box3d;`. -/
structure box3d where
  max : point3d
  min : point3d
deriving DecidableEq

/-- C: `bool is_front_facing(triangle2d &triangle)` — fixed-point wedge of
the two edge vectors, `0` (false) exactly when the wedge is negative.
The `-` between the two `mulfix` products is the plain 32-bit subtraction. -/
def is_front_facing (t : triangle2d) : Bool :=
  let x1 := subfix t.points0.x t.points1.x
  let y1 := subfix t.points0.y t.points1.y
  let x2 := subfix t.points1.x t.points2.x
  let y2 := subfix t.points1.y t.points2.y
  let wedge := wrap32 (mulfix x1 y2 - mulfix x2 y1)
  if wedge < 0 then false else true

/-- Modelled from the claim's words: the exact (unbounded-integer) wedge
`e1.x*e2.y - e2.x*e1.y` of the edge vectors `e1 = p0 - p1`,
`e2 = p1 - p2`. -/
def wedge_spec (t : triangle2d) : Int :=
  (t.points0.x - t.points1.x) * (t.points1.y - t.points2.y)
    - (t.points1.x - t.points2.x) * (t.points0.y - t.points1.y)

/-! ## Draw box and scaler -/

/-- C: `fixed_t min(fixed_t a, fixed_t b, fixed_t c)` — three-way minimum
(`min = c; if (a<min) min=a; if (b<min) min=b`). -/
def min3 (a b c : Int) : Int :=
  let m := c
  let m := if a < m then a else m
  let m := if b < m then b else m
  m

/-- C: `find_dimensions_box2d` — componentwise `subfix max min`. -/
def find_dimensions_box2d (box : box2d) : point2d :=
  ⟨subfix box.max.x box.min.x, subfix box.max.y box.min.y⟩

/-- C: `find_dimensions_box3d` — componentwise `subfix max min`. -/
def find_dimensions_box3d (box : box3d) : point3d :=
  ⟨subfix box.max.x box.min.x, subfix box.max.y box.min.y,
   subfix box.max.z box.min.z⟩

/-- C: `make_drawbox(box3d &drawbox, box2d &screen)` — note the source
passes `dims.y` twice to `min`: `min(dims.x, dims.y, dims.y)`. -/
def make_drawbox (screen : box2d) : box3d :=
  let dims := find_dimensions_box2d screen
  let mindim := min3 dims.x dims.y dims.y
  let half := divfix mindim (int_to_fix 2)
  let neghalf := mulfix half (int_to_fix (-1))
  { max := ⟨half, half, half⟩, min := ⟨neghalf, neghalf, neghalf⟩ }

/-- C: `find_scaler(box3d &bbox, box3d &drawbox, vector3d &scaler)` —
per-axis `divfix` ratios of the dimensions, three-way minimum, then all
three components are set to `mulfix(minscale, 0x00009e35)` (0.618 in
Q16.16). -/
def find_scaler (bbox drawbox : box3d) : point3d :=
  let dimsbb := find_dimensions_box3d bbox
  let dimsdb := find_dimensions_box3d drawbox
  let sx := divfix dimsdb.x dimsbb.x
  let sy := divfix dimsdb.y dimsbb.y
  let sz := divfix dimsdb.z dimsbb.z
  let minscale := min3 sx sy sz
  let v := mulfix minscale 0x00009e35
  ⟨v, v, v⟩

/-! ## ASCII decimal parser -/

/-- uint32 wraparound of `*c - 48`, the digit value read by the parser
(for non-digit bytes this wraps, exactly as the unsigned C subtraction). -/
def decdigit (c : Char) : Nat := (c.toNat + 4294967248) % 4294967296

/-- C: the first scanning loop of `ascii_decimal_to_fixed_t`:
`while (*c!=' ' && *c!='\n' && *c!='.') { tmp = tmp*10 + (*c-48); c++; }`.
Reading the terminating NUL (or past it) is undefined behavior in the
source; the model stops at the end of the input. -/
def ascii_int_loop : Nat → List Char → Nat × List Char
  | tmp, [] => (tmp, [])
  | tmp, c :: cs =>
    if c = ' ' ∨ c = '\n' ∨ c = '.' then (tmp, c :: cs)
    else ascii_int_loop ((tmp * 10 + decdigit c) % 4294967296) cs

/-- C: the second scanning loop (fraction digits): additionally stops at
`'e'` and multiplies `dividend` by 10 per digit. -/
def ascii_frac_loop : Nat → Nat → List Char → Nat × Nat × List Char
  | tmp2, dividend, [] => (tmp2, dividend, [])
  | tmp2, dividend, c :: cs =>
    if c = ' ' ∨ c = '\n' ∨ c = '.' ∨ c = 'e' then (tmp2, dividend, c :: cs)
    else ascii_frac_loop ((tmp2 * 10 + decdigit c) % 4294967296)
      ((dividend * 10) % 4294967296) cs

/-- C: `while (tmp2>65535) { tmp2/=10; dividend/=10; }` — drop excess
decimal precision until the fraction accumulator fits in 16 bits.  The C
loop needs at most 10 iterations (`tmp2 < 2^32`), so a fixed fuel of 64
is faithful. -/
def ascii_reduce : Nat → Nat → Nat → Nat × Nat
  | 0, tmp2, dividend => (tmp2, dividend)
  | fuel+1, tmp2, dividend =>
    if 65535 < tmp2 then ascii_reduce fuel (tmp2 / 10) (dividend / 10)
    else (tmp2, dividend)

/-- C: `const char * ascii_decimal_to_fixed_t(const char *c, fixed_t &fixed)`
— returns the parsed fixed value and the advanced cursor.  The final
`c++` skips the delimiter that stopped the fraction loop;
`fixed = intpart | fracpart` is the uint32 bitwise or;
`fixed = sign * fixed` is 32-bit multiplication.  A zero `dividend`
(C UB through division by zero) is Nat division by zero in the model. -/
def ascii_decimal_to_fixed_t (c : List Char) : Int × List Char :=
  let sc := if c.head? = some '-' then ((-1 : Int), c.tail) else (1, c)
  let t1 := ascii_int_loop 0 sc.2
  let c2 := t1.2
  let c3 := if c2.head? = some '.' then c2.tail else c2
  let t2 := ascii_frac_loop 0 1 c3
  let ez := if t2.2.2.head? = some 'e' then ((0 : Nat), (0 : Nat)) else (t1.1, t2.1)
  let rd := ascii_reduce 64 ez.2 t2.2.1
  let c5 := t2.2.2.tail
  let intpart := (ez.1 * 65536) % 4294967296
  let fracpart := ((rd.1 * 65536) % 4294967296) / rd.2
  let fixedU := intpart ||| fracpart
  (wrap32 (sc.1 * wrap32 (fixedU : Int)), c5)

/-! ## STL ingestion (`parse_stl`) -/

/-- C: `bool is_null_triangle3d(triangle3d &t)` — the loop over the three
points, unrolled: true exactly when all nine coordinates are zero. -/
def is_null_triangle3d (t : triangle3d) : Bool :=
  t.points0.x == 0 && t.points0.y == 0 && t.points0.z == 0 &&
  t.points1.x == 0 && t.points1.y == 0 && t.points1.z == 0 &&
  t.points2.x == 0 && t.points2.y == 0 && t.points2.z == 0

/-- C: the all-zero triangle written by `set_null_triangle3d`. -/
def null_triangle3d : triangle3d := ⟨⟨0, 0, 0⟩, ⟨0, 0, 0⟩, ⟨0, 0, 0⟩⟩

/-- C: `while (*s && strncmp(s,"vertex ",7)) s++;` — advance to the next
occurrence of the literal marker, or to the terminating NUL (modelled as
the empty list) when there is none. -/
def skip_to_vertex : List Char → List Char
  | [] => []
  | c :: cs =>
    if ("vertex ".toList).isPrefixOf (c :: cs) then c :: cs
    else skip_to_vertex cs

/-- Three consecutive `ascii_decimal_to_fixed_t` calls filling a point
(`p->x`, `p->y`, `p->z`). -/
def parse_point (s : List Char) : point3d × List Char :=
  let r1 := ascii_decimal_to_fixed_t s
  let r2 := ascii_decimal_to_fixed_t r1.2
  let r3 := ascii_decimal_to_fixed_t r2.2
  (⟨r1.1, r2.1, r3.1⟩, r3.2)

/-- C: the inner `for (uint8_t i=0;i<3;i++)` of `parse_stl`, unrolled:
for each point, scan to `"vertex "`; `if (!*s) break;` leaves the
remaining points of the slot untouched, otherwise skip the 7 marker
characters and parse the coordinate triple. -/
def parse_tri (cur : triangle3d) (s : List Char) : triangle3d × List Char :=
  let s0 := skip_to_vertex s
  if s0 = [] then (cur, s0) else
  let p0 := parse_point (s0.drop 7)
  let cur0 := { cur with points0 := p0.1 }
  let s1 := skip_to_vertex p0.2
  if s1 = [] then (cur0, s1) else
  let p1 := parse_point (s1.drop 7)
  let cur1 := { cur0 with points1 := p1.1 }
  let s2 := skip_to_vertex p1.2
  if s2 = [] then (cur1, s2) else
  let p2 := parse_point (s2.drop 7)
  ({ cur1 with points2 := p2.1 }, p2.2)

/-- C: the outer loop of `parse_stl`:
`while (*s && !(tri_index>=MAX_TRIANGLES))`, writing into slot
`triangles[tri_index]` and advancing `tri_index` only when the filled
slot is not the null triangle.  `committed` is the list of slots
`0..tri_index-1`; a freshly reached slot holds the null triangle because
the global array has static (zero-initialized) storage and slots are only
ever reached once. -/
def parse_loop : Nat → List triangle3d → Nat → triangle3d → List Char → List triangle3d
  | 0, committed, _, _, _ => committed
  | fuel+1, committed, maxT, cur, s =>
    if s = [] ∨ maxT ≤ committed.length then committed
    else
      let r := parse_tri cur s
      if is_null_triangle3d r.1 then parse_loop fuel committed maxT r.1 r.2
      else parse_loop fuel (committed ++ [r.1]) maxT null_triangle3d r.2

/-- C: `void parse_stl(const char *stl_base, triangle3d triangles[])`.
The capacity macro `MAX_TRIANGLES` is the parameter `maxT`.  Returns the
committed triangles (array slots `0..n-1`) together with the index at
which the final `set_null_triangle3d(triangles[tri_index])` writes the
sentinel.  Each outer iteration either consumes input or commits a slot,
so `s.length + maxT + 2` units of fuel are faithful to the C loop. -/
def parse_stl (maxT : Nat) (s : List Char) : List triangle3d × Nat :=
  let committed := parse_loop (s.length + maxT + 2) [] maxT null_triangle3d s
  (committed, committed.length)

/-! ## Bounding box -/

/-- C: `void extend_box3d(box3d &box, point3d &p)` — componentwise
widen/narrow (`box.max.x = p.x>box.max.x ? p.x : box.max.x;` etc.). -/
def extend_box3d (box : box3d) (p : point3d) : box3d :=
  { max := ⟨if box.max.x < p.x then p.x else box.max.x,
            if box.max.y < p.y then p.y else box.max.y,
            if box.max.z < p.z then p.z else box.max.z⟩,
    min := ⟨if p.x < box.min.x then p.x else box.min.x,
            if p.y < box.min.y then p.y else box.min.y,
            if p.z < box.min.z then p.z else box.min.z⟩ }

/-- The three points of a triangle in iteration order
(`for (p=t->points; p - t->points < 3; p++)`). -/
def triangle_points (t : triangle3d) : List point3d :=
  [t.points0, t.points1, t.points2]

/-- C: `void find_bounding_box(triangle3d triangles[], box3d &bbox)` —
`bbox.max = bbox.min = triangles[0].points[0];`, then extend by every
point of every triangle up to (not including) the sentinel.  The model
list holds the array slots before the sentinel, so the
`!is_null_triangle3d(*t)` iteration folds over the longest null-free
prefix; for an empty list, slot 0 is the sentinel itself
(zero-initialized storage), i.e. the origin. -/
def find_bounding_box (ts : List triangle3d) : box3d :=
  let p00 := (ts.headD null_triangle3d).points0
  (ts.takeWhile (fun t => !is_null_triangle3d t)).foldl
    (fun box t => (triangle_points t).foldl extend_box3d box)
    { max := p00, min := p00 }

theorem wrap32_eq_self {x : Int} (h : in32 x) : wrap32 x = x := by
  unfold in32 at h; unfold wrap32; omega

theorem wrap32_in32 (x : Int) : in32 (wrap32 x) := by
  unfold in32 wrap32; constructor <;> omega

/-- Core algebraic fact behind the refinement claim: the split-operand
multiply agrees with the naive 64-bit-intermediate multiply on every
pair of `int32_t` inputs. -/
theorem mulfix_eq_mulfix_naive (a b : Int) (ha : in32 a) (hb : in32 b) :
    mulfix a b = mulfix_naive a b := by
  obtain ⟨ha1, ha2⟩ := ha
  obtain ⟨hb1, hb2⟩ := hb
  simp only [mulfix, mulfix_naive]
  set A := a / 65536 with hAdef
  set B := a % 65536 with hBdef
  set C := b / 65536 with hCdef
  set D := b % 65536 with hDdef
  have hBb : 0 ≤ B ∧ B < 65536 := by constructor <;> omega
  have hDb : 0 ≤ D ∧ D < 65536 := by constructor <;> omega
  have hAb : -32768 ≤ A ∧ A < 32768 := by constructor <;> omega
  have hCb : -32768 ≤ C ∧ C < 32768 := by constructor <;> omega
  have ha' : a = 65536 * A + B := by omega
  have hb' : b = 65536 * C + D := by omega
  have key : a * b = (A * C) * 4294967296 + (A * D + C * B) * 65536 + B * D := by
    rw [ha', hb']; ring
  -- bound the partial products, then treat them as opaque integers
  have hT1 : 0 ≤ B * D := mul_nonneg hBb.1 hDb.1
  have hT2 : B * D ≤ 65535 * 65535 :=
    mul_le_mul (by omega) (by omega) hDb.1 (by norm_num)
  have hAD1 : A * D ≤ 32768 * 65535 := by nlinarith [hAb.2, hDb.1, hDb.2]
  have hAD2 : -(32768 * 65535) ≤ A * D := by nlinarith [hAb.1, hDb.1, hDb.2]
  have hCB1 : C * B ≤ 32768 * 65535 := by nlinarith [hCb.2, hBb.1, hBb.2]
  have hCB2 : -(32768 * 65535) ≤ C * B := by nlinarith [hCb.1, hBb.1, hBb.2]
  rw [key]
  simp only [wrap32]
  split_ifs <;> omega

/-- C10: for all 32-bit inputs, the split-operand partial-product
algorithm of `mulfix` computes exactly the low 32 bits of the arithmetic
right shift by 16 of the exact 64-bit signed product. -/
theorem C10_mulfix_equals_naive_wide_multiply (a b : Int) (ha : in32 a) (hb : in32 b) :
    mulfix a b = mulfix_naive a b :=
  mulfix_eq_mulfix_naive a b ha hb

theorem C10_witness :
    in32 (-123456789) ∧ in32 987654 ∧
      mulfix (-123456789) 987654 = mulfix_naive (-123456789) 987654 :=
  ⟨by decide, by decide, C10_mulfix_equals_naive_wide_multiply _ _ (by decide) (by decide)⟩

/-- C9: multiplying any representable fixed-point value by the fixed-point
constant one (`int_to_fix 1`) returns it unchanged. -/
theorem C9_mulfix_one (x : Int) (hx : in32 x) : mulfix x (int_to_fix 1) = x := by
  have h1 : int_to_fix 1 = 65536 := by decide
  rw [h1, mulfix_eq_mulfix_naive x 65536 hx (by decide)]
  unfold mulfix_naive
  rw [Int.mul_ediv_cancel x (by norm_num)]
  exact wrap32_eq_self hx

theorem C9_witness : in32 (-802816) ∧ mulfix (-802816) (int_to_fix 1) = -802816 :=
  ⟨by decide, C9_mulfix_one (-802816) (by decide)⟩

/-- Bitwise or of a `2^(j+1)`-aligned number with the single bit `2^j`
is addition (the quotient accumulator of `divfix` only ever sets fresh,
lower bits). -/
theorem lor_aligned (j m : Nat) : (m * 2^(j+1)) ||| 2^j = m * 2^(j+1) + 2^j := by
  induction j generalizing m with
  | zero =>
    have hbit := Nat.lor_bit false m true 0
    simp only [Nat.bit, Bool.false_or, cond_false, cond_true] at hbit
    have h0 : m ||| 0 = m := by simp
    rw [h0] at hbit
    have g1 : m * 2 ^ (0+1) = 2 * m := by ring
    have g2 : (2:Nat) ^ 0 = 2 * 0 + 1 := by norm_num
    rw [g1, g2, hbit]
  | succ j ih =>
    set a := m * 2 ^ (j+1) with ha
    have hbit := Nat.lor_bit false a false (2^j)
    simp only [Nat.bit, Bool.or_self, cond_false] at hbit
    have g1 : m * 2 ^ (j+1+1) = 2 * a := by rw [ha]; ring
    have g2 : (2:Nat) ^ (j+1) = 2 * 2 ^ j := by ring
    rw [g1, g2, hbit, ih m]
    ring

/-- The alignment loop multiplies divider and bit by the same power of two,
the least one that brings the divider up to the remainder.  The invariant
`r * bit ≤ D * 2^31` rules out 32-bit overflow of either shift. -/
theorem divfix_align_spec : ∀ (fuel r D bit : Nat), 0 < D → 0 < bit →
    r ≤ 2147483648 → r * bit ≤ D * 2147483648 → r ≤ D * 2^fuel →
    ∃ k, divfix_align fuel r D bit = (D * 2^k, bit * 2^k) ∧ r ≤ D * 2^k ∧
      (k = 0 ∨ D * 2^(k-1) < r) := by
  intro fuel
  induction fuel with
  | zero =>
    intro r D bit hD hbit hr hinv hfit
    exact ⟨0, by simp [divfix_align], by simpa using hfit, Or.inl rfl⟩
  | succ fuel ih =>
    intro r D bit hD hbit hr hinv hfit
    by_cases hlt : D < r
    · have hD32 : D < 2147483648 := lt_of_lt_of_le hlt hr
      have hmul : D * bit < D * 2147483648 :=
        lt_of_lt_of_le (by exact Nat.mul_lt_mul_of_lt_of_le hlt (le_refl bit) hbit) hinv
      have hbit32 : bit < 2147483648 := Nat.lt_of_mul_lt_mul_left hmul
      have hs1 : shift32 D = 2 * D := by unfold shift32; omega
      have hs2 : shift32 bit = 2 * bit := by unfold shift32; omega
      have hfit' : r ≤ 2 * D * 2 ^ fuel := by
        have : D * 2 ^ (fuel+1) = 2 * D * 2 ^ fuel := by ring
        omega
      obtain ⟨k, heq, hle, hmin⟩ :=
        ih r (2*D) (2*bit) (by omega) (by omega) hr (by nlinarith [hinv]) hfit'
      refine ⟨k+1, ?_, ?_, Or.inr ?_⟩
      · simp only [divfix_align, if_pos hlt, hs1, hs2, heq]
        have e1 : 2 * D * 2 ^ k = D * 2 ^ (k+1) := by ring
        have e2 : 2 * bit * 2 ^ k = bit * 2 ^ (k+1) := by ring
        rw [e1, e2]
      · have : 2 * D * 2 ^ k = D * 2 ^ (k+1) := by ring
        omega
      · rcases hmin with h0 | hgt
        · subst h0
          simpa using hlt
        · have : 2 * D * 2 ^ (k-1) = D * 2 ^ (k+1-1) := by
            rcases k with _ | k'
            · omega
            · simp only [Nat.add_sub_cancel, Nat.succ_sub_one]
              ring
          omega
    · exact ⟨0, by simp [divfix_align, if_neg hlt], by simpa using not_lt.mp hlt,
        Or.inl rfl⟩

theorem divfix_loop_zero_rem (fuel D q bit : Nat) :
    divfix_loop fuel 0 D q bit = q := by
  cases fuel <;> simp [divfix_loop]

theorem divfix_loop_zero_bit (fuel r D q : Nat) :
    divfix_loop fuel r D q 0 = q := by
  cases fuel <;> simp [divfix_loop]

/-- The main restoring-division loop: starting from a `2^(j+1)`-aligned
quotient accumulator, remainder below twice the divider, and current bit
`2^j`, it adds exactly `r * 2^j / D` to the accumulator.  `D < 2^31`
keeps the doubled remainder inside 32 bits at every step. -/
theorem divfix_loop_spec : ∀ (fuel j r D q : Nat), j < fuel → 0 < D →
    D < 2147483648 → r < 2 * D → q % 2 ^ (j+1) = 0 →
    divfix_loop fuel r D q (2 ^ j) = q + r * 2 ^ j / D := by
  intro fuel
  induction fuel with
  | zero =>
    intro j r D q hj
    exact (Nat.not_lt_zero j hj).elim
  | succ fuel ih =>
    intro j r D q hj hD hD32 hr hq
    by_cases hr0 : r = 0
    · subst hr0
      rw [divfix_loop_zero_rem]
      simp
    · obtain ⟨m, hm⟩ : 2 ^ (j+1) ∣ q := Nat.dvd_of_mod_eq_zero hq
      have hlor : q ||| 2 ^ j = q + 2 ^ j := by
        rw [hm, mul_comm]
        exact lor_aligned j m
      rcases j with _ | j'
      · -- last bit: 2^0 = 1, after this step the bit becomes 0
        simp only [divfix_loop]
        rw [if_pos ⟨by norm_num, hr0⟩]
        by_cases hs : D ≤ r
        · rw [if_pos hs, hlor]
          norm_num
          rw [divfix_loop_zero_bit]
          have : r / D = 1 := Nat.div_eq_of_lt_le (by omega) (by omega)
          omega
        · rw [if_neg hs]
          norm_num
          rw [divfix_loop_zero_bit]
          have : r / D = 0 := Nat.div_eq_of_lt (by omega)
          omega
      · -- bit = 2^(j'+1)
        simp only [divfix_loop]
        rw [if_pos ⟨pow_ne_zero _ (by norm_num), hr0⟩]
        have hbit2 : (2:Nat) ^ (j'+1) / 2 = 2 ^ j' := by
          rw [pow_succ]
          exact Nat.mul_div_cancel _ (by norm_num)
        by_cases hs : D ≤ r
        · rw [if_pos hs, hlor, hbit2]
          have hshift : shift32 (r - D) = 2 * (r - D) := by unfold shift32; omega
          rw [hshift]
          have hq' : (q + 2 ^ (j'+1)) % 2 ^ (j'+1) = 0 := by
            have e : q + 2 ^ (j'+1) = 2 ^ (j'+1) * (2 * m + 1) := by rw [hm]; ring
            rw [e, Nat.mul_mod_right]
          rw [ih j' (2*(r-D)) D (q + 2^(j'+1)) (by omega) hD hD32 (by omega) hq']
          have e1 : (2*(r-D)) * 2 ^ j' = (r - D) * 2 ^ (j'+1) := by ring
          have e2 : r * 2 ^ (j'+1) = (r-D) * 2 ^ (j'+1) + 2 ^ (j'+1) * D := by
            have hrd : r = (r - D) + D := by omega
            calc r * 2 ^ (j'+1) = ((r-D) + D) * 2 ^ (j'+1) := by rw [← hrd]
              _ = (r-D) * 2 ^ (j'+1) + 2 ^ (j'+1) * D := by ring
          rw [e1, e2, Nat.add_mul_div_right _ _ hD]
          omega
        · rw [if_neg hs, hbit2]
          have hshift : shift32 r = 2 * r := by unfold shift32; omega
          rw [hshift]
          have hq' : q % 2 ^ (j'+1) = 0 := by
            have e : q = 2 ^ (j'+1) * (2 * m) := by rw [hm]; ring
            rw [e, Nat.mul_mod_right]
          rw [ih j' (2*r) D q (by omega) hD hD32 (by omega) hq']
          have e1 : (2*r) * 2 ^ j' = r * 2 ^ (j'+1) := by ring
          rw [e1]

/-- Correctness of the magnitude pipeline of `divfix`: when the true
quotient `A * 2^16 / B` is below `2^31`, no intermediate wraps, and the
three phases (alignment, over-wide-divider step, main loop) compute
exactly the truncated quotient. -/
theorem divfix_core (A B : Nat) (hBpos : 0 < B) (hA31 : A ≤ 2147483648)
    (hB31 : B ≤ 2147483648) (hq : A * 65536 < 2147483648 * B) :
    divfix_loop 64
      (divfix_mid A (divfix_align 64 A B 65536).1 0 (divfix_align 64 A B 65536).2).1
      (divfix_mid A (divfix_align 64 A B 65536).1 0 (divfix_align 64 A B 65536).2).2.1
      (divfix_mid A (divfix_align 64 A B 65536).1 0 (divfix_align 64 A B 65536).2).2.2.1
      (divfix_mid A (divfix_align 64 A B 65536).1 0 (divfix_align 64 A B 65536).2).2.2.2
      = A * 65536 / B := by
  have h64 : A ≤ B * 2 ^ 64 :=
    calc A ≤ 2147483648 := hA31
      _ ≤ 1 * 2 ^ 64 := by norm_num
      _ ≤ B * 2 ^ 64 := Nat.mul_le_mul_right _ hBpos
  obtain ⟨k, heq, hle, hmin⟩ :=
    divfix_align_spec 64 A B 65536 hBpos (by norm_num) hA31 (by omega) h64
  simp only [heq]
  rcases k with _ | k'
  · -- aligned with no shifts: divider is B itself, bit = 2^16
    simp only [pow_zero, mul_one] at hle ⊢
    by_cases hbig : 2147483648 ≤ B
    · have hBeq : B = 2147483648 := by omega
      subst hBeq
      by_cases hAB : (2147483648:Nat) ≤ A
      · have hAeq : A = 2147483648 := by omega
        subst hAeq
        decide
      · have hmid : divfix_mid A 2147483648 0 65536 = (A, 1073741824, 0, 32768) := by
          unfold divfix_mid
          rw [if_pos (by norm_num), if_neg hAB]
        simp only [hmid]
        have h15 : (32768:Nat) = 2 ^ 15 := by norm_num
        rw [h15]
        rw [divfix_loop_spec 64 15 A 1073741824 0 (by norm_num) (by norm_num)
          (by norm_num) (by omega) (by norm_num)]
        have e1 : A * 2 ^ 15 = A * 32768 := by norm_num
        have e2 : A * 65536 = A * 32768 * 2 := by ring
        have e3 : (2147483648:Nat) = 1073741824 * 2 := by norm_num
        rw [e1, e2, e3, Nat.mul_div_mul_right _ _ (by norm_num)]
        exact Nat.zero_add _
    · -- divider below 2^31: the over-wide step is skipped
      have hmid : divfix_mid A B 0 65536 = (A, B, 0, 65536) := by
        unfold divfix_mid
        rw [if_neg hbig]
      simp only [hmid]
      have h16 : (65536:Nat) = 2 ^ 16 := by norm_num
      rw [h16]
      rw [divfix_loop_spec 64 16 A B 0 (by norm_num) hBpos (by omega) (by omega)
        (by norm_num)]
      norm_num
  · -- k = k'+1 alignment shifts happened, so B * 2^k' < A
    have hgt : B * 2 ^ k' < A := by
      rcases hmin with h0 | hgt'
      · omega
      · simpa using hgt'
    have hD1e : B * 2 ^ (k'+1) = 2 * (B * 2 ^ k') := by ring
    have hD1lt : B * 2 ^ (k'+1) < 4294967296 := by omega
    have hk31 : k' + 1 < 32 := by
      have h1 : (2:Nat) ^ (k'+1) ≤ B * 2 ^ (k'+1) := Nat.le_mul_of_pos_left _ hBpos
      have h2 : (2:Nat) ^ (k'+1) < 2 ^ 32 := by
        calc (2:Nat) ^ (k'+1) ≤ B * 2 ^ (k'+1) := h1
          _ < 4294967296 := hD1lt
          _ = 2 ^ 32 := by norm_num
      exact (Nat.pow_lt_pow_iff_right (by norm_num)).mp h2
    have hbite : (65536:Nat) * 2 ^ (k'+1) = 2 ^ (16+(k'+1)) := by
      rw [pow_add 2 16 (k'+1)]; norm_num
    by_cases hbig : 2147483648 ≤ B * 2 ^ (k'+1)
    · by_cases hAD : B * 2 ^ (k'+1) ≤ A
      · -- remainder equals the aligned divider exactly
        have hAeq : A = B * 2 ^ (k'+1) := le_antisymm hle hAD
        have hmid : divfix_mid A (B * 2 ^ (k'+1)) 0 (65536 * 2 ^ (k'+1)) =
            (0, B * 2 ^ (k'+1) / 2, 65536 * 2 ^ (k'+1), 65536 * 2 ^ (k'+1) / 2) := by
          unfold divfix_mid
          rw [if_pos hbig, if_pos hAD]
          have hz : A - B * 2 ^ (k'+1) = 0 := by omega
          rw [hz]
          have hl : 0 ||| 65536 * 2 ^ (k'+1) = 65536 * 2 ^ (k'+1) := by simp
          rw [hl]
        simp only [hmid]
        rw [divfix_loop_zero_rem]
        rw [hAeq]
        have e : B * 2 ^ (k'+1) * 65536 = B * (65536 * 2 ^ (k'+1)) := by ring
        rw [e, Nat.mul_div_cancel_left _ hBpos]
      · -- over-wide divider, remainder strictly below it: halve and run the loop
        have hmid : divfix_mid A (B * 2 ^ (k'+1)) 0 (65536 * 2 ^ (k'+1)) =
            (A, B * 2 ^ k', 0, 65536 * 2 ^ k') := by
          unfold divfix_mid
          rw [if_pos hbig, if_neg hAD]
          have ed : B * 2 ^ (k'+1) / 2 = B * 2 ^ k' := by
            have e : B * 2 ^ (k'+1) = B * 2 ^ k' * 2 := by ring
            rw [e, Nat.mul_div_cancel _ (by norm_num)]
          have eb : 65536 * 2 ^ (k'+1) / 2 = 65536 * 2 ^ k' := by
            have e : (65536:Nat) * 2 ^ (k'+1) = 65536 * 2 ^ k' * 2 := by ring
            rw [e, Nat.mul_div_cancel _ (by norm_num)]
          rw [ed, eb]
        simp only [hmid]
        have ebit : (65536:Nat) * 2 ^ k' = 2 ^ (16+k') := by
          rw [pow_add]; norm_num
        rw [ebit]
        rw [divfix_loop_spec 64 (16+k') A (B * 2 ^ k') 0 (by omega)
          (Nat.mul_pos hBpos (Nat.pos_pow_of_pos _ (by norm_num))) (by omega)
          (by omega) (by norm_num)]
        have e : A * 2 ^ (16+k') = A * 65536 * 2 ^ k' := by
          rw [pow_add]; ring
        rw [e, Nat.mul_div_mul_right _ _ (Nat.pos_pow_of_pos _ (by norm_num))]
        exact Nat.zero_add _
    · -- the aligned divider is still below 2^31: the over-wide step is skipped
      have hmid : divfix_mid A (B * 2 ^ (k'+1)) 0 (65536 * 2 ^ (k'+1)) =
          (A, B * 2 ^ (k'+1), 0, 65536 * 2 ^ (k'+1)) := by
        unfold divfix_mid
        rw [if_neg hbig]
      simp only [hmid]
      rw [hbite]
      have hD1pos : 0 < B * 2 ^ (k'+1) :=
        Nat.mul_pos hBpos (Nat.pos_pow_of_pos _ (by norm_num))
      rw [divfix_loop_spec 64 (16+(k'+1)) A (B * 2 ^ (k'+1)) 0 (by omega)
        hD1pos (by omega) (by omega) (by norm_num)]
      have e : A * 2 ^ (16+(k'+1)) = A * 65536 * 2 ^ (k'+1) := by
        rw [pow_add]; ring
      rw [e, Nat.mul_div_mul_right _ _ (Nat.pos_pow_of_pos _ (by norm_num))]
      exact Nat.zero_add _

/-- `divfix` on representable operands with nonzero divisor and
representable quotient magnitude computes the truncated magnitude
quotient with the xor-of-signs sign rule. -/
theorem divfix_spec (a b : Int) (ha : in32 a) (hb : in32 b) (hb0 : b ≠ 0)
    (hq : a.natAbs * 65536 < 2147483648 * b.natAbs) :
    divfix a b = if (a < 0) ↔ (b < 0) then ((a.natAbs * 65536 / b.natAbs : Nat) : Int)
      else -((a.natAbs * 65536 / b.natAbs : Nat) : Int) := by
  have hBpos : 0 < b.natAbs := Int.natAbs_pos.mpr hb0
  have hA31 : a.natAbs ≤ 2147483648 := by unfold in32 at ha; omega
  have hB31 : b.natAbs ≤ 2147483648 := by unfold in32 at hb; omega
  have hcore := divfix_core a.natAbs b.natAbs hBpos hA31 hB31 (by omega)
  have hQlt : a.natAbs * 65536 / b.natAbs < 2147483648 :=
    (Nat.div_lt_iff_lt_mul hBpos).mpr (by omega)
  simp only [divfix]
  rw [hcore]
  have hw1 : wrap32 ((a.natAbs * 65536 / b.natAbs : Nat) : Int) =
      ((a.natAbs * 65536 / b.natAbs : Nat) : Int) := by
    apply wrap32_eq_self; unfold in32; omega
  rw [hw1]
  split_ifs with hsign
  · rfl
  · apply wrap32_eq_self; unfold in32; omega

/-- C2 (counterexample): the claimed one-ulp bound fails already at
`a = 3.0`, `b = 7.0`: the quotient `3/7` is truncated to 16 fractional
bits and multiplying back by `7` amplifies the truncation, giving a raw
distance of `6` from `a`. -/
theorem C2_counterexample :
    in32 (int_to_fix 3) ∧ in32 (int_to_fix 7) ∧ int_to_fix 7 ≠ 0 ∧
      ¬ (mulfix (divfix (int_to_fix 3) (int_to_fix 7)) (int_to_fix 7)
          - int_to_fix 3).natAbs ≤ 1 := by
  decide

/-- C2 (amended): for representable `a`, `b` with `b ≠ 0` whose true
quotient magnitude `|a|·2^16/|b|` is representable, the round trip
`mulfix (divfix a b) b` differs from `a` by at most one unit in the last
fractional bit of the quotient scaled by `b`, i.e. by at most
`|b|/2^16 + 1` raw units (not by at most `1`). -/
theorem C2_roundtrip_error_bound (a b : Int) (ha : in32 a) (hb : in32 b) (hb0 : b ≠ 0)
    (hq : a.natAbs * 65536 < 2147483648 * b.natAbs) :
    (mulfix (divfix a b) b - a).natAbs ≤ b.natAbs / 65536 + 1 := by
  have hBpos : 0 < b.natAbs := Int.natAbs_pos.mpr hb0
  have ha' := ha
  have hb' := hb
  unfold in32 at ha' hb'
  rw [divfix_spec a b ha hb hb0 hq]
  obtain ⟨Q, hQg⟩ : ∃ q, a.natAbs * 65536 / b.natAbs = q := ⟨_, rfl⟩
  obtain ⟨R, hRg⟩ : ∃ r, (a.natAbs * 65536) % b.natAbs = r := ⟨_, rfl⟩
  rw [hQg]
  have hQR : b.natAbs * Q + R = a.natAbs * 65536 := by
    rw [← hQg, ← hRg]; exact Nat.div_add_mod _ _
  have hRlt : R < b.natAbs := hRg ▸ Nat.mod_lt _ hBpos
  have hQlt : Q < 2147483648 := hQg ▸ ((Nat.div_lt_iff_lt_mul hBpos).mpr (by omega))
  split_ifs with hsign
  · have hQ32 : in32 ((Q : Nat) : Int) := by unfold in32; omega
    rw [mulfix_eq_mulfix_naive _ _ hQ32 hb]
    simp only [mulfix_naive]
    have hc : ((b.natAbs * Q : Nat) : Int) + (R : Int) = (a.natAbs : Int) * 65536 := by
      exact_mod_cast hQR
    rcases Int.natAbs_eq b with hbe | hbe
    · have hp : ((Q : Nat) : Int) * b = ((b.natAbs * Q : Nat) : Int) := by
        conv_lhs => rw [hbe]
        exact_mod_cast Nat.mul_comm Q b.natAbs
      rw [hp]
      have hX : in32 (((b.natAbs * Q : Nat) : Int) / 65536) := by unfold in32; omega
      rw [wrap32_eq_self hX]
      omega
    · have hp : ((Q : Nat) : Int) * b = -((b.natAbs * Q : Nat) : Int) := by
        conv_lhs => rw [hbe, mul_neg]
        exact congrArg Neg.neg (by exact_mod_cast Nat.mul_comm Q b.natAbs)
      rw [hp]
      have hX : in32 (-((b.natAbs * Q : Nat) : Int) / 65536) := by unfold in32; omega
      rw [wrap32_eq_self hX]
      omega
  · have hQ32 : in32 (-((Q : Nat) : Int)) := by unfold in32; omega
    rw [mulfix_eq_mulfix_naive _ _ hQ32 hb]
    simp only [mulfix_naive]
    have hc : ((b.natAbs * Q : Nat) : Int) + (R : Int) = (a.natAbs : Int) * 65536 := by
      exact_mod_cast hQR
    rcases Int.natAbs_eq b with hbe | hbe
    · have hp : -((Q : Nat) : Int) * b = -((b.natAbs * Q : Nat) : Int) := by
        conv_lhs => rw [hbe, neg_mul]
        exact congrArg Neg.neg (by exact_mod_cast Nat.mul_comm Q b.natAbs)
      rw [hp]
      have hX : in32 (-((b.natAbs * Q : Nat) : Int) / 65536) := by unfold in32; omega
      rw [wrap32_eq_self hX]
      omega
    · have hp : -((Q : Nat) : Int) * b = ((b.natAbs * Q : Nat) : Int) := by
        conv_lhs => rw [hbe, neg_mul_neg]
        exact_mod_cast Nat.mul_comm Q b.natAbs
      rw [hp]
      have hX : in32 (((b.natAbs * Q : Nat) : Int) / 65536) := by unfold in32; omega
      rw [wrap32_eq_self hX]
      omega

theorem C2_roundtrip_witness :
    (mulfix (divfix (int_to_fix 3) (int_to_fix 7)) (int_to_fix 7)
      - int_to_fix 3).natAbs ≤ (int_to_fix 7).natAbs / 65536 + 1 :=
  C2_roundtrip_error_bound (int_to_fix 3) (int_to_fix 7) (by decide) (by decide)
    (by decide) (by decide)

/-- C3 (counterexample): the tiny counterclockwise triangle
`p0 = (1,1), p1 = (0,0), p2 = (-1,0)` (raw units) has exact wedge `-1 < 0`,
so by the claim it should be classified back-facing, but `is_front_facing`
returns true: both `mulfix` products truncate to `0`. -/
theorem C3_counterexample :
    is_front_facing ⟨⟨1,1⟩, ⟨0,0⟩, ⟨-1,0⟩⟩ = true ∧
      wedge_spec ⟨⟨1,1⟩, ⟨0,0⟩, ⟨-1,0⟩⟩ < 0 := by
  decide

/-- C3 (amended): absent 32-bit overflow, `is_front_facing` returns true
iff the difference of the two truncated Q16.16 products is non-negative;
consequently every clockwise triangle (positive exact wedge) and every
zero-area triangle is front-facing, and a counterclockwise triangle is
back-facing once its exact wedge is at most `-2^16` — but a
counterclockwise triangle with `-2^16 < wedge < 0` may be misclassified
as front-facing by the truncation. -/
theorem C3_front_facing_truncated_wedge (t : triangle2d)
    (he1x : in32 (t.points0.x - t.points1.x))
    (he1y : in32 (t.points0.y - t.points1.y))
    (he2x : in32 (t.points1.x - t.points2.x))
    (he2y : in32 (t.points1.y - t.points2.y))
    (hp : in32 ((t.points0.x - t.points1.x) * (t.points1.y - t.points2.y) / 65536))
    (hq : in32 ((t.points1.x - t.points2.x) * (t.points0.y - t.points1.y) / 65536))
    (hd : in32 ((t.points0.x - t.points1.x) * (t.points1.y - t.points2.y) / 65536
      - (t.points1.x - t.points2.x) * (t.points0.y - t.points1.y) / 65536)) :
    (is_front_facing t = true ↔
      0 ≤ (t.points0.x - t.points1.x) * (t.points1.y - t.points2.y) / 65536
        - (t.points1.x - t.points2.x) * (t.points0.y - t.points1.y) / 65536)
    ∧ (0 < wedge_spec t → is_front_facing t = true)
    ∧ (wedge_spec t ≤ -65536 → is_front_facing t = false)
    ∧ (wedge_spec t = 0 → is_front_facing t = true) := by
  have hff : is_front_facing t = true ↔
      0 ≤ (t.points0.x - t.points1.x) * (t.points1.y - t.points2.y) / 65536
        - (t.points1.x - t.points2.x) * (t.points0.y - t.points1.y) / 65536 := by
    simp only [is_front_facing, subfix]
    simp only [wrap32_eq_self he1x, wrap32_eq_self he1y, wrap32_eq_self he2x,
      wrap32_eq_self he2y, mulfix_eq_mulfix_naive _ _ he1x he2y,
      mulfix_eq_mulfix_naive _ _ he2x he1y, mulfix_naive,
      wrap32_eq_self hp, wrap32_eq_self hq, wrap32_eq_self hd]
    split_ifs with hW
    · simp only [Bool.false_eq_true, false_iff]
      omega
    · simp only [true_iff]
      omega
  refine ⟨hff, ?_, ?_, ?_⟩
  · intro h
    rw [hff]
    simp only [wedge_spec] at h
    omega
  · intro h
    cases hbo : is_front_facing t
    · rfl
    · exfalso
      have := hff.mp hbo
      simp only [wedge_spec] at h
      omega
  · intro h
    rw [hff]
    simp only [wedge_spec] at h
    omega

theorem C3_witness :
    is_front_facing ⟨⟨65536, 65536⟩, ⟨0, 0⟩, ⟨0, 65536⟩⟩ = false :=
  (C3_front_facing_truncated_wedge ⟨⟨65536, 65536⟩, ⟨0, 0⟩, ⟨0, 65536⟩⟩
    (by decide) (by decide) (by decide) (by decide) (by decide) (by decide)
    (by decide)).2.2.1 (by decide)

/-- Halving a nonnegative representable multiple of one by `divfix` with
the fixed-point two is exact. -/
theorem divfix_half (m : Int) (hm : 0 ≤ m) (hm2 : m < 32768) :
    divfix (m * 65536) (int_to_fix 2) = m * 32768 := by
  have h2 : int_to_fix 2 = 131072 := by decide
  rw [h2]
  have hiff : ((m * 65536 : Int) < 0) ↔ ((131072 : Int) < 0) := by omega
  rw [divfix_spec (m * 65536) 131072 (by unfold in32; omega) (by decide)
    (by decide) (by omega), if_pos hiff]
  have hna : (131072 : Int).natAbs = 131072 := rfl
  rw [hna]
  omega

/-- Multiplying a representable value by the fixed-point minus one
negates it exactly. -/
theorem mulfix_neg_one (v : Int) (h : in32 v) (h' : in32 (-v)) :
    mulfix v (int_to_fix (-1)) = -v := by
  have h1 : int_to_fix (-1) = -65536 := by decide
  rw [h1, mulfix_eq_mulfix_naive v _ h (by decide)]
  simp only [mulfix_naive]
  have e : v * -65536 = -v * 65536 := by ring
  rw [e, Int.mul_ediv_cancel _ (by norm_num)]
  exact wrap32_eq_self h'

/-- `make_drawbox` on a viewport `[0,w] x [0,h]` (given in fixed point)
yields the origin-centered cube of half-extent `min w h * 2^16 / 2`. -/
theorem make_drawbox_spec (w h : Int) (hw0 : 0 ≤ w) (hw : w < 32768)
    (hh0 : 0 ≤ h) (hh : h < 32768) :
    make_drawbox ⟨⟨int_to_fix w, int_to_fix h⟩, ⟨int_to_fix 0, int_to_fix 0⟩⟩ =
      { max := ⟨min w h * 32768, min w h * 32768, min w h * 32768⟩,
        min := ⟨-(min w h * 32768), -(min w h * 32768), -(min w h * 32768)⟩ } := by
  have hw' : int_to_fix w = w * 65536 := by
    simp only [int_to_fix]; exact wrap32_eq_self (by unfold in32; omega)
  have hh' : int_to_fix h = h * 65536 := by
    simp only [int_to_fix]; exact wrap32_eq_self (by unfold in32; omega)
  have h0' : int_to_fix 0 = 0 := by decide
  have hsw : subfix (w * 65536) 0 = w * 65536 := by
    simp only [subfix, sub_zero]; exact wrap32_eq_self (by unfold in32; omega)
  have hsh : subfix (h * 65536) 0 = h * 65536 := by
    simp only [subfix, sub_zero]; exact wrap32_eq_self (by unfold in32; omega)
  simp only [make_drawbox, find_dimensions_box2d, hw', hh', h0', hsw, hsh, min3]
  have hmm : (if w * 65536 < h * 65536 then w * 65536 else h * 65536) =
      min w h * 65536 := by
    split_ifs with hc
    · have : min w h = w := by omega
      rw [this]
    · have : min w h = h := by omega
      rw [this]
  have hbb : (if h * 65536 < (if w * 65536 < h * 65536 then w * 65536 else h * 65536)
      then h * 65536 else (if w * 65536 < h * 65536 then w * 65536 else h * 65536)) =
      min w h * 65536 := by
    rw [hmm]
    split_ifs with hc
    · omega
    · rfl
  rw [hbb]
  have hhalf := divfix_half (min w h) (by omega) (by omega)
  rw [hhalf]
  have hneg := mulfix_neg_one (min w h * 32768) (by unfold in32; omega)
    (by unfold in32; omega)
  rw [hneg]

/-- C7: the draw box is an origin-centered cube whose half-extent is half
the smaller viewport dimension, and `find_scaler` sets all three scaler
components to the minimum of the three per-axis `divfix` ratios of
drawbox extent to model extent, multiplied by the constant
`0x00009e35` (≈ 0.618). -/
theorem C7_drawbox_and_scaler :
    (∀ w h : Int, 0 ≤ w → w < 32768 → 0 ≤ h → h < 32768 →
      make_drawbox ⟨⟨int_to_fix w, int_to_fix h⟩, ⟨int_to_fix 0, int_to_fix 0⟩⟩ =
        { max := ⟨min w h * 32768, min w h * 32768, min w h * 32768⟩,
          min := ⟨-(min w h * 32768), -(min w h * 32768), -(min w h * 32768)⟩ })
    ∧ (∀ bb db : box3d, find_scaler bb db =
        ⟨mulfix (min3 (divfix (subfix db.max.x db.min.x) (subfix bb.max.x bb.min.x))
            (divfix (subfix db.max.y db.min.y) (subfix bb.max.y bb.min.y))
            (divfix (subfix db.max.z db.min.z) (subfix bb.max.z bb.min.z))) 0x00009e35,
         mulfix (min3 (divfix (subfix db.max.x db.min.x) (subfix bb.max.x bb.min.x))
            (divfix (subfix db.max.y db.min.y) (subfix bb.max.y bb.min.y))
            (divfix (subfix db.max.z db.min.z) (subfix bb.max.z bb.min.z))) 0x00009e35,
         mulfix (min3 (divfix (subfix db.max.x db.min.x) (subfix bb.max.x bb.min.x))
            (divfix (subfix db.max.y db.min.y) (subfix bb.max.y bb.min.y))
            (divfix (subfix db.max.z db.min.z) (subfix bb.max.z bb.min.z))) 0x00009e35⟩) :=
  ⟨make_drawbox_spec, fun _ _ => rfl⟩

theorem C7_witness :
    make_drawbox ⟨⟨int_to_fix 100, int_to_fix 80⟩, ⟨int_to_fix 0, int_to_fix 0⟩⟩ =
      { max := ⟨min 100 80 * 32768, min 100 80 * 32768, min 100 80 * 32768⟩,
        min := ⟨-(min 100 80 * 32768), -(min 100 80 * 32768),
          -(min 100 80 * 32768)⟩ } :=
  C7_drawbox_and_scaler.1 100 80 (by decide) (by decide) (by decide) (by decide)

theorem ascii_reduce_small (fuel t d : Nat) (h : t ≤ 65535) :
    ascii_reduce fuel t d = (t, d) := by
  cases fuel with
  | zero => rfl
  | succ fuel => simp [ascii_reduce, Nat.not_lt.mpr h]

/-- C4: the parser converts `"23.5"` to `23<<16 | 0x8000` and `"-12.25"`
to the arithmetic negation of `12<<16 | 0x4000` (each numeral followed by
a delimiter). -/
theorem C4_parser_exactness :
    (ascii_decimal_to_fixed_t ("23.5 ".toList)).1 = 23 * 65536 + 0x8000
    ∧ (ascii_decimal_to_fixed_t ("-12.25 ".toList)).1 = -(12 * 65536 + 0x4000) := by
  decide

theorem digit_not_delim1 {c : Char} (h : 48 ≤ c.toNat ∧ c.toNat ≤ 57) :
    ¬ (c = ' ' ∨ c = '\n' ∨ c = '.') := by
  rintro (rfl | rfl | rfl) <;> exact absurd h (by decide)

theorem digit_not_delim2 {c : Char} (h : 48 ≤ c.toNat ∧ c.toNat ≤ 57) :
    ¬ (c = ' ' ∨ c = '\n' ∨ c = '.' ∨ c = 'e') := by
  rintro (rfl | rfl | rfl | rfl) <;> exact absurd h (by decide)

theorem ascii_int_loop_digits : ∀ (ds : List Char) (tmp : Nat) (r : List Char),
    (∀ c ∈ ds, 48 ≤ c.toNat ∧ c.toNat ≤ 57) →
    (ascii_int_loop tmp (ds ++ '.' :: r)).2 = '.' :: r := by
  intro ds
  induction ds with
  | nil =>
    intro tmp r _
    simp [ascii_int_loop]
  | cons c cs ih =>
    intro tmp r hd
    have hc := hd c (by simp)
    simp only [List.cons_append, ascii_int_loop]
    rw [if_neg (digit_not_delim1 hc)]
    exact ih _ r (fun x hx => hd x (by simp [hx]))

theorem ascii_frac_loop_digits : ∀ (fs : List Char) (t d : Nat) (r : List Char),
    (∀ c ∈ fs, 48 ≤ c.toNat ∧ c.toNat ≤ 57) →
    (ascii_frac_loop t d (fs ++ 'e' :: r)).2.2 = 'e' :: r := by
  intro fs
  induction fs with
  | nil =>
    intro t d r _
    simp [ascii_frac_loop]
  | cons c cs ih =>
    intro t d r hd
    have hc := hd c (by simp)
    simp only [List.cons_append, ascii_frac_loop]
    rw [if_neg (digit_not_delim2 hc)]
    exact ih _ _ r (fun x hx => hd x (by simp [hx]))

/-- C5 (counterexample): `"1e5"` is a well-formed numeral containing the
exponent marker, but an `'e'` with no preceding `'.'` is consumed by the
integer-digit loop as a digit, giving the nonzero garbage value
`635 << 16`; and for `"6.23e-16"` the returned cursor stops right after
the `'e'`, leaving `"-16 "` unconsumed instead of the text past the
entire numeral. -/
theorem C5_counterexample :
    (ascii_decimal_to_fixed_t ("1e5 ".toList)).1 ≠ 0
    ∧ (ascii_decimal_to_fixed_t ("6.23e-16 ".toList)).2 = "-16 ".toList
    ∧ (ascii_decimal_to_fixed_t ("6.23e-16 ".toList)).1 = 0 := by
  decide

/-- C5 (amended): when the fractional part of the numeral is terminated
by `'e'`, the value is forced to exactly `0` (also under a leading minus
sign), and the cursor is advanced to just past the `'e'`: the exponent
digits are left unconsumed for the next scan. -/
theorem C5_exponent_zeroes (ds fs rest : List Char)
    (hds : ∀ c ∈ ds, 48 ≤ c.toNat ∧ c.toNat ≤ 57)
    (hfs : ∀ c ∈ fs, 48 ≤ c.toNat ∧ c.toNat ≤ 57) :
    ascii_decimal_to_fixed_t (ds ++ '.' :: (fs ++ 'e' :: rest)) = (0, rest)
    ∧ ascii_decimal_to_fixed_t ('-' :: (ds ++ '.' :: (fs ++ 'e' :: rest)))
      = (0, rest) := by
  have hsign : (ds ++ '.' :: (fs ++ 'e' :: rest)).head? ≠ some '-' := by
    cases ds with
    | nil =>
      simp
    | cons c cs =>
      simp only [List.cons_append, List.head?_cons, ne_eq, Option.some.injEq]
      intro hEq
      exact absurd (hds c (by simp)) (by rw [hEq]; decide)
  have hint := ascii_int_loop_digits ds 0 (fs ++ 'e' :: rest) hds
  have hfrac := ascii_frac_loop_digits fs 0 1 rest hfs
  constructor
  · simp only [ascii_decimal_to_fixed_t, if_neg hsign]
    simp [hint, hfrac, ascii_reduce_small, wrap32]
  · simp only [ascii_decimal_to_fixed_t, List.head?_cons, List.tail_cons]
    simp [hint, hfrac, ascii_reduce_small, wrap32]

theorem C5_witness :
    ascii_decimal_to_fixed_t (['6'] ++ '.' :: (['2', '3'] ++ 'e' :: "-16 ".toList))
      = (0, "-16 ".toList) :=
  (C5_exponent_zeroes ['6'] ['2', '3'] ("-16 ".toList) (by decide) (by decide)).1

theorem parse_loop_nonnull : ∀ (fuel : Nat) (committed : List triangle3d)
    (maxT : Nat) (cur : triangle3d) (s : List Char),
    (∀ t ∈ committed, is_null_triangle3d t = false) →
    ∀ t ∈ parse_loop fuel committed maxT cur s, is_null_triangle3d t = false := by
  intro fuel
  induction fuel with
  | zero =>
    intro committed maxT cur s h
    simpa [parse_loop] using h
  | succ fuel ih =>
    intro committed maxT cur s h t
    simp only [parse_loop]
    split_ifs with h1 h2
    · exact h t
    · exact ih _ _ _ _ h t
    · refine ih _ _ _ _ ?_ t
      intro t' ht'
      rcases List.mem_append.mp ht' with h' | h'
      · exact h t' h'
      · simp only [List.mem_singleton] at h'
        subst h'
        cases hnull : is_null_triangle3d (parse_tri cur s).1
        · rfl
        · exact absurd hnull h2

/-- C8: every slot before the terminating sentinel holds a triangle with
at least one nonzero coordinate — a parsed slot that is all-zero is
discarded without advancing the write cursor, so the all-zero triangle
occurs only as the terminator. -/
theorem C8_no_null_before_sentinel (maxT : Nat) (s : List Char) :
    ∀ t ∈ (parse_stl maxT s).1, is_null_triangle3d t = false := by
  intro t ht
  simp only [parse_stl] at ht
  exact parse_loop_nonnull _ [] maxT null_triangle3d s
    (fun t' ht' => absurd ht' (List.not_mem_nil t')) t ht

theorem C8_witness :
    is_null_triangle3d ⟨⟨65536, 131072, 196608⟩, ⟨262144, 327680, 393216⟩,
      ⟨458752, 524288, 589824⟩⟩ = false :=
  C8_no_null_before_sentinel 5 ("vertex 1 2 3 vertex 4 5 6 vertex 7 8 9 ".toList)
    ⟨⟨65536, 131072, 196608⟩, ⟨262144, 327680, 393216⟩,
      ⟨458752, 524288, 589824⟩⟩ (by decide)

set_option maxRecDepth 100000 in
/-- C1: feeding `MAX_TRIANGLES + 5` well-formed non-null facets to a
capacity-`MAX_TRIANGLES` ingester (model instance: capacity 2, 7 facets)
stores exactly the first `MAX_TRIANGLES` facets — and then writes the
sentinel at index `MAX_TRIANGLES`, which is one slot past the last valid
index of `triangle3d triangles[MAX_TRIANGLES]`: the sentinel write is out
of bounds, contradicting the claim's "no write outside the bounds". -/
theorem C1_capacity_sentinel_out_of_bounds :
    (parse_stl 2 ("vertex 1 0 0 vertex 0 1 0 vertex 0 0 1 vertex 2 0 0 vertex 0 2 0 vertex 0 0 2 vertex 3 0 0 vertex 0 3 0 vertex 0 0 3 vertex 4 0 0 vertex 0 4 0 vertex 0 0 4 vertex 5 0 0 vertex 0 5 0 vertex 0 0 5 vertex 6 0 0 vertex 0 6 0 vertex 0 0 6 vertex 7 0 0 vertex 0 7 0 vertex 0 0 7 ".toList)).1
      = [⟨⟨65536, 0, 0⟩, ⟨0, 65536, 0⟩, ⟨0, 0, 65536⟩⟩,
         ⟨⟨131072, 0, 0⟩, ⟨0, 131072, 0⟩, ⟨0, 0, 131072⟩⟩]
    ∧ (parse_stl 2 ("vertex 1 0 0 vertex 0 1 0 vertex 0 0 1 vertex 2 0 0 vertex 0 2 0 vertex 0 0 2 vertex 3 0 0 vertex 0 3 0 vertex 0 0 3 vertex 4 0 0 vertex 0 4 0 vertex 0 0 4 vertex 5 0 0 vertex 0 5 0 vertex 0 0 5 vertex 6 0 0 vertex 0 6 0 vertex 0 0 6 vertex 7 0 0 vertex 0 7 0 vertex 0 0 7 ".toList)).2
      = 2 := by
  decide

theorem takeWhile_nonnull : ∀ (ts : List triangle3d),
    (∀ t ∈ ts, is_null_triangle3d t = false) →
    ts.takeWhile (fun t => !is_null_triangle3d t) = ts := by
  intro ts
  induction ts with
  | nil => intro _; rfl
  | cons t ts ih =>
    intro h
    have ht := h t (by simp)
    simp [List.takeWhile_cons, ht, ih (fun x hx => h x (List.mem_cons_of_mem _ hx))]

theorem foldl_imax_spec : ∀ (l : List Int) (i : Int),
    i ≤ l.foldl (fun m v => if m < v then v else m) i
    ∧ (∀ v ∈ l, v ≤ l.foldl (fun m v => if m < v then v else m) i)
    ∧ (l.foldl (fun m v => if m < v then v else m) i = i
       ∨ l.foldl (fun m v => if m < v then v else m) i ∈ l) := by
  intro l
  induction l with
  | nil =>
    intro i
    exact ⟨le_refl i, fun v hv => absurd hv (List.not_mem_nil v), Or.inl rfl⟩
  | cons a l ih =>
    intro i
    simp only [List.foldl_cons]
    obtain ⟨h1, h2, h3⟩ := ih (if i < a then a else i)
    refine ⟨le_trans (by split_ifs <;> omega) h1, ?_, ?_⟩
    · intro v hv
      rcases List.mem_cons.mp hv with rfl | hv'
      · exact le_trans (by split_ifs <;> omega) h1
      · exact h2 v hv'
    · rcases h3 with he | hm
      · rw [he]
        split_ifs with hc
        · exact Or.inr (by simp)
        · exact Or.inl rfl
      · exact Or.inr (List.mem_cons_of_mem _ hm)

theorem foldl_imin_spec : ∀ (l : List Int) (i : Int),
    l.foldl (fun m v => if v < m then v else m) i ≤ i
    ∧ (∀ v ∈ l, l.foldl (fun m v => if v < m then v else m) i ≤ v)
    ∧ (l.foldl (fun m v => if v < m then v else m) i = i
       ∨ l.foldl (fun m v => if v < m then v else m) i ∈ l) := by
  intro l
  induction l with
  | nil =>
    intro i
    exact ⟨le_refl i, fun v hv => absurd hv (List.not_mem_nil v), Or.inl rfl⟩
  | cons a l ih =>
    intro i
    simp only [List.foldl_cons]
    obtain ⟨h1, h2, h3⟩ := ih (if a < i then a else i)
    refine ⟨le_trans h1 (by split_ifs <;> omega), ?_, ?_⟩
    · intro v hv
      rcases List.mem_cons.mp hv with rfl | hv'
      · exact le_trans h1 (by split_ifs <;> omega)
      · exact h2 v hv'
    · rcases h3 with he | hm
      · rw [he]
        split_ifs with hc
        · exact Or.inr (by simp)
        · exact Or.inl rfl
      · exact Or.inr (List.mem_cons_of_mem _ hm)

theorem extend_fold_components : ∀ (pts : List point3d) (box : box3d),
    (pts.foldl extend_box3d box).max.x
      = (pts.map point3d.x).foldl (fun m v => if m < v then v else m) box.max.x
    ∧ (pts.foldl extend_box3d box).max.y
      = (pts.map point3d.y).foldl (fun m v => if m < v then v else m) box.max.y
    ∧ (pts.foldl extend_box3d box).max.z
      = (pts.map point3d.z).foldl (fun m v => if m < v then v else m) box.max.z
    ∧ (pts.foldl extend_box3d box).min.x
      = (pts.map point3d.x).foldl (fun m v => if v < m then v else m) box.min.x
    ∧ (pts.foldl extend_box3d box).min.y
      = (pts.map point3d.y).foldl (fun m v => if v < m then v else m) box.min.y
    ∧ (pts.foldl extend_box3d box).min.z
      = (pts.map point3d.z).foldl (fun m v => if v < m then v else m) box.min.z := by
  intro pts
  induction pts with
  | nil => intro box; exact ⟨rfl, rfl, rfl, rfl, rfl, rfl⟩
  | cons p ps ih =>
    intro box
    simp only [List.foldl_cons, List.map_cons]
    exact ih (extend_box3d box p)

theorem foldl_flatten : ∀ (l : List triangle3d) (box : box3d),
    l.foldl (fun box t => (triangle_points t).foldl extend_box3d box) box
      = (l.flatMap triangle_points).foldl extend_box3d box := by
  intro l
  induction l with
  | nil => intro box; rfl
  | cons t l ih =>
    intro box
    simp only [List.foldl_cons, List.flatMap_cons, List.foldl_append]
    exact ih _

/-- C6: for a nonempty list of non-sentinel triangles, every coordinate of
every vertex lies within the computed box componentwise, and each of the
six bounds is attained by some vertex. -/
theorem C6_bounding_box_correct (ts : List triangle3d) (hne : ts ≠ [])
    (hnn : ∀ t ∈ ts, is_null_triangle3d t = false) :
    (∀ t ∈ ts, ∀ p ∈ triangle_points t,
      (find_bounding_box ts).min.x ≤ p.x ∧ p.x ≤ (find_bounding_box ts).max.x ∧
      (find_bounding_box ts).min.y ≤ p.y ∧ p.y ≤ (find_bounding_box ts).max.y ∧
      (find_bounding_box ts).min.z ≤ p.z ∧ p.z ≤ (find_bounding_box ts).max.z)
    ∧ (∃ t ∈ ts, ∃ p ∈ triangle_points t, p.x = (find_bounding_box ts).max.x)
    ∧ (∃ t ∈ ts, ∃ p ∈ triangle_points t, p.y = (find_bounding_box ts).max.y)
    ∧ (∃ t ∈ ts, ∃ p ∈ triangle_points t, p.z = (find_bounding_box ts).max.z)
    ∧ (∃ t ∈ ts, ∃ p ∈ triangle_points t, p.x = (find_bounding_box ts).min.x)
    ∧ (∃ t ∈ ts, ∃ p ∈ triangle_points t, p.y = (find_bounding_box ts).min.y)
    ∧ (∃ t ∈ ts, ∃ p ∈ triangle_points t, p.z = (find_bounding_box ts).min.z) := by
  obtain ⟨t0, ts', rfl⟩ : ∃ t0 ts', ts = t0 :: ts' := by
    cases ts with
    | nil => exact absurd rfl hne
    | cons t0 ts' => exact ⟨t0, ts', rfl⟩
  have htw := takeWhile_nonnull _ hnn
  have hB : find_bounding_box (t0 :: ts')
      = ((t0 :: ts').flatMap triangle_points).foldl extend_box3d
        { max := t0.points0, min := t0.points0 } := by
    simp only [find_bounding_box, htw, List.headD_cons]
    exact foldl_flatten _ _
  obtain ⟨ex, ey, ez, nx, ny, nz⟩ :=
    extend_fold_components ((t0 :: ts').flatMap triangle_points)
      { max := t0.points0, min := t0.points0 }
  obtain ⟨mx1, mx2, mx3⟩ :=
    foldl_imax_spec (((t0 :: ts').flatMap triangle_points).map point3d.x) t0.points0.x
  obtain ⟨my1, my2, my3⟩ :=
    foldl_imax_spec (((t0 :: ts').flatMap triangle_points).map point3d.y) t0.points0.y
  obtain ⟨mz1, mz2, mz3⟩ :=
    foldl_imax_spec (((t0 :: ts').flatMap triangle_points).map point3d.z) t0.points0.z
  obtain ⟨ix1, ix2, ix3⟩ :=
    foldl_imin_spec (((t0 :: ts').flatMap triangle_points).map point3d.x) t0.points0.x
  obtain ⟨iy1, iy2, iy3⟩ :=
    foldl_imin_spec (((t0 :: ts').flatMap triangle_points).map point3d.y) t0.points0.y
  obtain ⟨iz1, iz2, iz3⟩ :=
    foldl_imin_spec (((t0 :: ts').flatMap triangle_points).map point3d.z) t0.points0.z
  have hmem : ∀ t ∈ (t0 :: ts'), ∀ p ∈ triangle_points t,
      p ∈ (t0 :: ts').flatMap triangle_points := by
    intro t ht p hp
    exact List.mem_flatMap.mpr ⟨t, ht, hp⟩
  have hmem00 : t0.points0 ∈ (t0 :: ts').flatMap triangle_points :=
    hmem t0 (by simp) t0.points0 (by simp [triangle_points])
  have hback : ∀ p ∈ (t0 :: ts').flatMap triangle_points,
      ∃ t ∈ (t0 :: ts'), p ∈ triangle_points t := by
    intro p hp
    obtain ⟨t, ht, hp'⟩ := List.mem_flatMap.mp hp
    exact ⟨t, ht, hp'⟩
  refine ⟨?_, ?_, ?_, ?_, ?_, ?_, ?_⟩
  · intro t ht p hp
    have hpm := hmem t ht p hp
    rw [hB, nx, ex, ny, ey, nz, ez]
    exact ⟨ix2 p.x (List.mem_map_of_mem _ hpm), mx2 p.x (List.mem_map_of_mem _ hpm),
      iy2 p.y (List.mem_map_of_mem _ hpm), my2 p.y (List.mem_map_of_mem _ hpm),
      iz2 p.z (List.mem_map_of_mem _ hpm), mz2 p.z (List.mem_map_of_mem _ hpm)⟩
  · rw [hB, ex]
    rcases mx3 with he | hm
    · exact ⟨t0, by simp, t0.points0, by simp [triangle_points], he.symm⟩
    · obtain ⟨p, hp, hpe⟩ := List.mem_map.mp hm
      obtain ⟨t, ht, hp'⟩ := hback p hp
      exact ⟨t, ht, p, hp', hpe⟩
  · rw [hB, ey]
    rcases my3 with he | hm
    · exact ⟨t0, by simp, t0.points0, by simp [triangle_points], he.symm⟩
    · obtain ⟨p, hp, hpe⟩ := List.mem_map.mp hm
      obtain ⟨t, ht, hp'⟩ := hback p hp
      exact ⟨t, ht, p, hp', hpe⟩
  · rw [hB, ez]
    rcases mz3 with he | hm
    · exact ⟨t0, by simp, t0.points0, by simp [triangle_points], he.symm⟩
    · obtain ⟨p, hp, hpe⟩ := List.mem_map.mp hm
      obtain ⟨t, ht, hp'⟩ := hback p hp
      exact ⟨t, ht, p, hp', hpe⟩
  · rw [hB, nx]
    rcases ix3 with he | hm
    · exact ⟨t0, by simp, t0.points0, by simp [triangle_points], he.symm⟩
    · obtain ⟨p, hp, hpe⟩ := List.mem_map.mp hm
      obtain ⟨t, ht, hp'⟩ := hback p hp
      exact ⟨t, ht, p, hp', hpe⟩
  · rw [hB, ny]
    rcases iy3 with he | hm
    · exact ⟨t0, by simp, t0.points0, by simp [triangle_points], he.symm⟩
    · obtain ⟨p, hp, hpe⟩ := List.mem_map.mp hm
      obtain ⟨t, ht, hp'⟩ := hback p hp
      exact ⟨t, ht, p, hp', hpe⟩
  · rw [hB, nz]
    rcases iz3 with he | hm
    · exact ⟨t0, by simp, t0.points0, by simp [triangle_points], he.symm⟩
    · obtain ⟨p, hp, hpe⟩ := List.mem_map.mp hm
      obtain ⟨t, ht, hp'⟩ := hback p hp
      exact ⟨t, ht, p, hp', hpe⟩

theorem C6_witness :
    ∃ t ∈ [(⟨⟨1, 2, 3⟩, ⟨4, 5, 6⟩, ⟨7, 8, 9⟩⟩ : triangle3d)],
      ∃ p ∈ triangle_points t,
        p.x = (find_bounding_box [(⟨⟨1, 2, 3⟩, ⟨4, 5, 6⟩, ⟨7, 8, 9⟩⟩ :
          triangle3d)]).max.x :=
  (C6_bounding_box_correct [⟨⟨1, 2, 3⟩, ⟨4, 5, 6⟩, ⟨7, 8, 9⟩⟩]
    (by decide) (by decide)).2.1
